import Mathlib

/-!
Verification of the `LinkedBST` binary-search-tree container (`linkedbst.py`).

The tree nodes (`BSTNode`) are modelled by the inductive type `BTree`; the
container itself (root pointer plus the `_size` counter inherited from
`AbstractCollection`) by the structure `LinkedBST`.  Mutating methods are
modelled by state passing: each takes the container and returns the new one.
Stored items are modelled as integers (`ℤ`), matching the total order the
source relies on.
-/

/-- A `BSTNode`: a datum and two optional children (`leaf` models `None`). -/
inductive BTree where
  | leaf : BTree
  | node : ℤ → BTree → BTree → BTree
deriving DecidableEq

/-- The `LinkedBST` container: the `_root` link and the `_size` counter. -/
structure LinkedBST where
  root : BTree
  size : ℕ
deriving DecidableEq

/-- Number of nodes of a subtree (the count `_size` tracks). -/
def countNodes : BTree → ℕ
  | .leaf => 0
  | .node _ l r => countNodes l + countNodes r + 1

/-- `LinkedBST.__init__` with no source collection: empty root, size 0. -/
def emptyBST : LinkedBST := { root := .leaf, size := 0 }

/-- `inorder()`: left subtree, datum, right subtree. -/
def inorderT : BTree → List ℤ
  | .leaf => []
  | .node v l r => inorderT l ++ v :: inorderT r

/-- `preorder()`: datum, left subtree, right subtree. -/
def preorderT : BTree → List ℤ
  | .leaf => []
  | .node v l r => v :: (preorderT l ++ preorderT r)

/-- The inner `height1` of `height()`: `None` and childless nodes report 0,
otherwise 1 plus the larger child height. -/
def height1 : BTree → ℕ
  | .leaf => 0
  | .node _ .leaf .leaf => 0
  | .node _ l r => 1 + max (height1 l) (height1 r)

/-- `height()` on the container. -/
def height (t : LinkedBST) : ℕ := height1 t.root

/-- The inner `print_level` of `levelorder()`: collect the datum when the
level counter reaches 1, recurse into both children when it exceeds 1. -/
def print_level : BTree → ℕ → List ℤ
  | .leaf, _ => []
  | .node _ _ _, 0 => []
  | .node v _ _, 1 => [v]
  | .node _ l r, n + 2 => print_level l (n + 1) ++ print_level r (n + 1)

/-- `levelorder()`: for `i in range(height())`, collect level `i + 1`. -/
def levelorder (t : LinkedBST) : List ℤ :=
  ((List.range (height t)).map (fun i => print_level t.root (i + 1))).flatten

/-- The inner `recurse` of `find(item)`: ordered descent from a node. -/
def findT : BTree → ℤ → Option ℤ
  | .leaf, _ => none
  | .node v l r, item =>
    if item = v then some v
    else if item < v then findT l item
    else findT r item

/-- `find(item)` on the container. -/
def find (t : LinkedBST) (item : ℤ) : Option ℤ := findT t.root item

/-- `__contains__`: `find(item) is not None`. -/
def contains (t : LinkedBST) (item : ℤ) : Bool := (find t item).isSome

/-- The inner `recurse` of `add(item)`: descend left on strictly smaller,
right otherwise (ties go right), creating the node at the first empty link. -/
def addNode (item : ℤ) : BTree → BTree
  | .leaf => .node item .leaf .leaf
  | .node v l r =>
    if item < v then .node v (addNode item l) r
    else .node v l (addNode item r)

/-- `add(item)`: empty tree gets the item at the root, otherwise descend;
`_size` always grows by one. -/
def add (t : LinkedBST) (item : ℤ) : LinkedBST :=
  if t.size = 0 then { root := .node item .leaf .leaf, size := t.size + 1 }
  else { root := addNode item t.root, size := t.size + 1 }

/-- The right-spine walk inside `lift_max_in_left_subtree_to_top`: extract
the maximum datum of a nonempty subtree, detaching its node (the removed
node's left child takes its place).  The `leaf` case is unreachable in the
source (the helper is only invoked on a node with a left child). -/
def removeMax : BTree → ℤ × BTree
  | .leaf => (0, .leaf)
  | .node v l .leaf => (v, l)
  | .node v l (.node rv rl rr) =>
    let p := removeMax (.node rv rl rr)
    (p.1, .node v l p.2)

/-- The case split of `remove` at the located node: with two children, lift
the maximum of the left subtree to the top; otherwise splice the sole (or
absent) child into the node's place. -/
def deleteNode (v : ℤ) (l r : BTree) : BTree :=
  if l ≠ BTree.leaf ∧ r ≠ BTree.leaf then
    BTree.node (removeMax l).1 (removeMax l).2 r
  else if l = BTree.leaf then r
  else l

/-- The locate-and-splice loop of `remove`: descend tracking the parent link
(`node.data == item` stops, `node.data > item` goes left, otherwise right);
`none` when the loop exhausts the tree without finding the item. -/
def removeLocate : BTree → ℤ → Option (ℤ × BTree)
  | .leaf, _ => none
  | .node v l r, item =>
    if v = item then some (v, deleteNode v l r)
    else if item < v then
      match removeLocate l item with
      | none => none
      | some p => some (p.1, .node v p.2 r)
    else
      match removeLocate r item with
      | none => none
      | some p => some (p.1, .node v l p.2)

/-- `remove(item)`: raise `KeyError` when the membership precheck fails;
return `None` on the (guarded) empty tree or when the locate loop misses;
otherwise splice the node out, decrement `_size`, and reset the root from
the synthetic pre-root (cleared to `None` when the tree became empty). -/
def remove (t : LinkedBST) (item : ℤ) : Except String (Option ℤ) × LinkedBST :=
  if contains t item = false then (Except.error "Item not in tree.", t)
  else if t.size = 0 then (Except.ok none, t)
  else
    match removeLocate t.root item with
    | none => (Except.ok none, t)
    | some p =>
      (Except.ok (some p.1),
       { root := if t.size - 1 = 0 then .leaf else p.2, size := t.size - 1 })

/-- `is_balanced()`: count the items with a full inorder traversal, then
compare `height()` against `2 * log(2 * (n + 1)) - 1`, where `log` is
`math.log`, the natural logarithm. -/
def is_balanced (t : LinkedBST) : Prop :=
  (height t : ℝ) < 2 * Real.log (2 * (((inorderT t.root).length : ℝ) + 1)) - 1

/-- `range_find(low, high)`: filter the inorder list; return the list when
nonempty and `None` otherwise. -/
def range_find (t : LinkedBST) (low high : ℤ) : Option (List ℤ) :=
  let ans := (inorderT t.root).filter (fun v => decide (low ≤ v ∧ v ≤ high))
  if 0 < ans.length then some ans else none

/-- The inner `rb1` of `rebalance()`: the middle element of the sorted list
becomes the root, the halves around it the subtrees. -/
def rb1 : List ℤ → BTree
  | [] => .leaf
  | x :: xs =>
    .node ((x :: xs).getD ((xs.length + 1) / 2) 0)
      (rb1 ((x :: xs).take ((xs.length + 1) / 2)))
      (rb1 ((x :: xs).drop ((xs.length + 1) / 2 + 1)))
termination_by l => l.length
decreasing_by
  · simp only [List.length_take, List.length_cons]
    omega
  · simp only [List.length_drop, List.length_cons]
    omega

/-- `rebalance()`: rebuild the root from the inorder list; `_size` untouched. -/
def rebalance (t : LinkedBST) : LinkedBST :=
  { root := rb1 (inorderT t.root), size := t.size }

/-- The explicit-stack loop shared by `__iter__` and the scans in
`successor`/`predecessor`: pop a node, emit its datum, push its right child
(when present) and then its left child (when present). -/
def iterLoop : List BTree → List ℤ
  | [] => []
  | .leaf :: rest => iterLoop rest
  | .node v l r :: rest =>
    v :: iterLoop ((if l = BTree.leaf then [] else [l]) ++
                   ((if r = BTree.leaf then [] else [r]) ++ rest))
termination_by s => 2 * (s.map countNodes).sum + s.length
decreasing_by
  · simp only [List.map_cons, List.sum_cons, List.length_cons, countNodes]
    omega
  · split <;> split <;>
      simp only [List.map_append, List.map_cons, List.map_nil, List.sum_append,
        List.sum_cons, List.sum_nil, List.length_append, List.length_cons,
        List.length_nil, countNodes] <;>
      omega

/-- `__iter__`: the stack traversal seeded with the root, guarded by
`isEmpty()`. -/
def iterBST (t : LinkedBST) : List ℤ :=
  if t.size = 0 then [] else iterLoop [t.root]

/-- `successor(item)`: scan every stored datum with the stack traversal,
keeping the smallest qualifying one in `min_num`, seeded with the sentinel
`10 ** 32`; return `None` when `min_num` still equals the sentinel. -/
def successor (t : LinkedBST) (item : ℤ) : Option ℤ :=
  let mn := (iterBST t).foldl (fun mn v => if item < v ∧ v ≤ mn then v else mn) (10 ^ 32)
  if mn ≠ 10 ^ 32 then some mn else none

/-- Bulk construction: `AbstractCollection.__init__` adds each item of the
source collection in order. -/
def buildTree (items : List ℤ) : LinkedBST := List.foldl add emptyBST items

/-- Consistency of the `_size` counter with the linked structure; it holds
for every tree reachable through the public interface. -/
abbrev wf (t : LinkedBST) : Prop := t.size = countNodes t.root

/-- The BST ordering invariant of §3 of the documentation: left subtree
strictly below the datum, right subtree at or above it, recursively. -/
def invB : BTree → Bool
  | .leaf => true
  | .node v l r =>
    (inorderT l).all (fun x => decide (x < v)) &&
    (inorderT r).all (fun x => decide (v ≤ x)) &&
    invB l && invB r

/-! ### Basic lemmas -/

theorem length_inorderT (t : BTree) : (inorderT t).length = countNodes t := by
  induction t with
  | leaf => rfl
  | node v l r ihl ihr => simp [inorderT, countNodes, ihl, ihr]; omega

theorem countNodes_eq_zero {t : BTree} (h : countNodes t = 0) : t = BTree.leaf := by
  cases t with
  | leaf => rfl
  | node v l r => simp [countNodes] at h

theorem findT_eq_none {t : BTree} {item : ℤ} (h : item ∉ inorderT t) :
    findT t item = none := by
  induction t with
  | leaf => rfl
  | node v l r ihl ihr =>
    simp only [inorderT, List.mem_append, List.mem_cons] at h
    push_neg at h
    obtain ⟨h1, h2, h3⟩ := h
    rw [findT, if_neg h2]
    split
    · exact ihl h1
    · exact ihr h3

/-! ### C10: the empty tree is balanced -/

/-- C10: `is_balanced()` returns True on the empty tree: with zero stored
items and height 0, the test `0 < 2 * log(2) - 1` succeeds. -/
theorem is_balanced_empty : is_balanced emptyBST := by
  have hlog := Real.log_two_gt_d9
  simp only [is_balanced, emptyBST, height, height1, inorderT, List.length_nil]
  norm_num
  linarith

/-! ### C1: the balance formula uses the natural logarithm, not base 2 -/

/-- C1 (counterexample): for the degenerate 7-item chain, `is_balanced()` is
false (since `math.log` is the natural logarithm, the threshold is
`2 * ln 16 - 1 ≈ 4.55 < 6`), while the claimed base-2 formula
`height < 2 * log2(2 * (n + 1)) - 1` evaluates to `6 < 7`, i.e. true. -/
theorem is_balanced_log2_counterexample :
    ¬ is_balanced (buildTree [1, 2, 3, 4, 5, 6, 7]) ∧
    ((height (buildTree [1, 2, 3, 4, 5, 6, 7]) : ℝ) <
      2 * Real.logb 2
        (2 * (((inorderT (buildTree [1, 2, 3, 4, 5, 6, 7]).root).length : ℝ) + 1)) - 1) := by
  have hh : height (buildTree [1, 2, 3, 4, 5, 6, 7]) = 6 := by decide
  have hl : (inorderT (buildTree [1, 2, 3, 4, 5, 6, 7]).root).length = 7 := by decide
  have hlt := Real.log_two_lt_d9
  have hpos : (0 : ℝ) < Real.log 2 := Real.log_pos (by norm_num)
  have h16 : Real.log 16 = 4 * Real.log 2 := by
    rw [show (16 : ℝ) = 2 ^ (4 : ℕ) by norm_num, Real.log_pow]
    norm_num
  have hlogb : Real.logb 2 16 = 4 := by
    have hne : Real.log 2 ≠ 0 := ne_of_gt hpos
    rw [← Real.log_div_log, h16]
    field_simp
  constructor
  · intro hbal
    simp only [is_balanced, hh, hl] at hbal
    norm_num at hbal
    rw [h16] at hbal
    linarith
  · rw [hh, hl]
    norm_num
    rw [hlogb]
    norm_num

/-- C1 (amended): `is_balanced()` counts the stored items `n` via a full
inorder traversal and returns true iff
`height() < 2 * ln(2 * (n + 1)) - 1`, where `ln` is the natural logarithm
(`math.log`). -/
theorem is_balanced_iff_natural_log (t : LinkedBST) :
    is_balanced t ↔
      (height t : ℝ) < 2 * Real.log (2 * ((countNodes t.root : ℝ) + 1)) - 1 := by
  rw [is_balanced, length_inorderT]

/-! ### C2: `levelorder()` drops the deepest level -/

/-- C2 (failing input): on the tree holding the single value 5, the loop
`for i in range(height())` runs zero times (height 0), so `levelorder()`
returns `[]` even though the value 5 is stored: the claimed breadth-first
enumeration of all stored values fails. -/
theorem levelorder_drops_deepest_level :
    levelorder (buildTree [5]) = [] ∧ inorderT (buildTree [5]).root = [5] := by
  decide

/-! ### C3: `successor` leaks its boundary sentinel -/

/-- C3 (failing input): on the tree holding the single value `10 ** 32`,
`successor(0)` returns `None` although the stored value `10 ** 32` is
strictly greater than 0: the sentinel suppresses a genuine qualifying
value, contradicting the claim (and the method's own docstring). -/
theorem successor_sentinel_leak :
    (10 ^ 32 : ℤ) ∈ inorderT (buildTree [10 ^ 32]).root ∧
    (0 : ℤ) < 10 ^ 32 ∧
    successor (buildTree [10 ^ 32]) 0 = none := by
  refine ⟨by norm_num [buildTree, emptyBST, add, inorderT], by norm_num, ?_⟩
  norm_num [successor, iterBST, iterLoop, buildTree, emptyBST, add]

/-! ### C4: `remove` of an absent item fails and leaves the tree unchanged -/

/-- C4: for every item not stored in the tree, `remove(item)` raises the
"not found" `KeyError` and leaves the state untouched: the size counter and
the `inorder()` sequence are identical before and after the failed call. -/
theorem remove_absent_unchanged (t : LinkedBST) (item : ℤ)
    (h : item ∉ inorderT t.root) :
    (remove t item).1 = Except.error "Item not in tree." ∧
    (remove t item).2.size = t.size ∧
    inorderT (remove t item).2.root = inorderT t.root := by
  have hc : contains t item = false := by
    simp [contains, find, findT_eq_none h]
  simp [remove, hc]

/-- C4 (witness): removing 7 from the tree built from `[5, 4, 6]`. -/
theorem remove_absent_unchanged_witness :
    (7 : ℤ) ∉ inorderT (buildTree [5, 4, 6]).root ∧
    ((remove (buildTree [5, 4, 6]) 7).1 = Except.error "Item not in tree." ∧
     (remove (buildTree [5, 4, 6]) 7).2.size = (buildTree [5, 4, 6]).size ∧
     inorderT (remove (buildTree [5, 4, 6]) 7).2.root =
       inorderT (buildTree [5, 4, 6]).root) :=
  ⟨by decide, remove_absent_unchanged (buildTree [5, 4, 6]) 7 (by decide)⟩

/-! ### C6: the inorder sequence is always non-decreasing -/

theorem mem_inorderT_addNode (i x : ℤ) (t : BTree) :
    x ∈ inorderT (addNode i t) ↔ x = i ∨ x ∈ inorderT t := by
  induction t with
  | leaf => simp [addNode, inorderT]
  | node v l r ihl ihr =>
    by_cases h : i < v
    · simp only [addNode, if_pos h, inorderT, List.mem_append, List.mem_cons, ihl]
      tauto
    · simp only [addNode, if_neg h, inorderT, List.mem_append, List.mem_cons, ihr]
      tauto

theorem invB_addNode (i : ℤ) {t : BTree} (h : invB t = true) :
    invB (addNode i t) = true := by
  induction t with
  | leaf => simp [addNode, invB, inorderT]
  | node v l r ihl ihr =>
    simp only [invB, Bool.and_eq_true, List.all_eq_true, decide_eq_true_eq] at h
    obtain ⟨⟨⟨hA, hB⟩, hC⟩, hD⟩ := h
    by_cases hi : i < v
    · simp only [addNode, if_pos hi, invB, Bool.and_eq_true, List.all_eq_true,
        decide_eq_true_eq]
      refine ⟨⟨⟨?_, hB⟩, ihl hC⟩, hD⟩
      intro x hx
      rcases (mem_inorderT_addNode i x l).1 hx with rfl | h'
      · exact hi
      · exact hA x h'
    · simp only [addNode, if_neg hi, invB, Bool.and_eq_true, List.all_eq_true,
        decide_eq_true_eq]
      refine ⟨⟨⟨hA, ?_⟩, hC⟩, ihr hD⟩
      intro x hx
      rcases (mem_inorderT_addNode i x r).1 hx with rfl | h'
      · exact le_of_not_lt hi
      · exact hB x h'

theorem sorted_of_invB {t : BTree} (h : invB t = true) :
    (inorderT t).Sorted (· ≤ ·) := by
  induction t with
  | leaf => simp [inorderT]
  | node v l r ihl ihr =>
    simp only [invB, Bool.and_eq_true, List.all_eq_true, decide_eq_true_eq] at h
    obtain ⟨⟨⟨hA, hB⟩, hC⟩, hD⟩ := h
    rw [inorderT]
    refine List.pairwise_append.2 ⟨ihl hC, ?_, ?_⟩
    · exact List.sorted_cons.2 ⟨fun b hb => hB b hb, ihr hD⟩
    · intro x hx y hy
      rcases List.mem_cons.1 hy with rfl | hy'
      · exact (hA x hx).le
      · exact (hA x hx).le.trans (hB y hy')

theorem countNodes_addNode (i : ℤ) (t : BTree) :
    countNodes (addNode i t) = countNodes t + 1 := by
  induction t with
  | leaf => rfl
  | node v l r ihl ihr =>
    by_cases h : i < v <;> simp [addNode, h, countNodes, ihl, ihr] <;> omega

theorem build_aux (items : List ℤ) :
    ∀ t : LinkedBST, wf t → invB t.root = true →
      wf (List.foldl add t items) ∧ invB (List.foldl add t items).root = true := by
  induction items with
  | nil => exact fun t h1 h2 => ⟨h1, h2⟩
  | cons x xs ih =>
    intro t h1 h2
    rw [List.foldl_cons]
    apply ih
    · by_cases hs : t.size = 0
      · simp [add, hs, wf, countNodes]
      · simp only [add, if_neg hs, wf]
        rw [countNodes_addNode]
        omega
    · by_cases hs : t.size = 0
      · simp [add, hs, invB, inorderT]
      · simp only [add, if_neg hs]
        exact invB_addNode x h2

/-- C6: for every finite sequence of items inserted via `add` into an
initially empty tree (duplicates allowed), the BST ordering invariant
(left strictly less, right greater or equal) holds, and `inorder()` yields
a non-decreasing sequence. -/
theorem inorder_sorted_after_adds (items : List ℤ) :
    invB (buildTree items).root = true ∧
    (inorderT (buildTree items).root).Sorted (· ≤ ·) := by
  have h := build_aux items emptyBST rfl rfl
  rw [buildTree]
  exact ⟨h.2, sorted_of_invB h.2⟩

/-! ### C7: default iteration equals the recursive preorder -/

theorem iterLoop_eq (s : List BTree) :
    iterLoop s = (s.map preorderT).flatten := by
  induction s using iterLoop.induct with
  | case1 => simp [iterLoop]
  | case2 rest ih => simp [iterLoop, preorderT, ih]
  | case3 v l r rest ih =>
    by_cases hl : l = BTree.leaf <;> by_cases hr : r = BTree.leaf <;>
      simp only [iterLoop] <;>
      simp [hl, hr, preorderT] at ih ⊢ <;>
      exact ih

/-- C7: for every well-formed tree, the value sequence of default iteration
(`__iter__`, an explicit-stack loop popping a node, yielding its datum and
pushing right then left) equals the recursive `preorder()` sequence. -/
theorem iter_eq_preorder (t : LinkedBST) (h : wf t) :
    iterBST t = preorderT t.root := by
  by_cases hs : t.size = 0
  · have h0 : countNodes t.root = 0 := by omega
    have hr : t.root = BTree.leaf := countNodes_eq_zero h0
    simp [iterBST, hs, hr, preorderT]
  · simp [iterBST, hs, iterLoop_eq]

/-- C7 (witness): the tree built from `[5, 4, 6]`. -/
theorem iter_eq_preorder_witness :
    wf (buildTree [5, 4, 6]) ∧
    iterBST (buildTree [5, 4, 6]) = preorderT (buildTree [5, 4, 6]).root :=
  ⟨by decide, iter_eq_preorder (buildTree [5, 4, 6]) (by decide)⟩

/-! ### C9: a normal return of `remove` always carries the removed item -/

theorem removeLocate_isSome_of_findT (t : BTree) (item : ℤ)
    (h : (findT t item).isSome = true) :
    ∃ r, removeLocate t item = some (item, r) := by
  induction t with
  | leaf => simp [findT] at h
  | node v l r ihl ihr =>
    rw [findT] at h
    by_cases h1 : item = v
    · subst h1
      exact ⟨deleteNode item l r, by rw [removeLocate, if_pos rfl]⟩
    · rw [if_neg h1] at h
      by_cases h2 : item < v
      · rw [if_pos h2] at h
        obtain ⟨r', hr'⟩ := ihl h
        refine ⟨.node v r' r, ?_⟩
        rw [removeLocate, if_neg (fun hv => h1 hv.symm), if_pos h2, hr']
      · rw [if_neg h2] at h
        obtain ⟨r', hr'⟩ := ihr h
        refine ⟨.node v l r', ?_⟩
        rw [removeLocate, if_neg (fun hv => h1 hv.symm), if_neg h2, hr']

/-- C9: whenever `remove(item)` returns normally (does not raise), the
returned value equals `item`: under the membership precheck, the
empty-tree branch and the item-not-located branch, which would return no
value, are unreachable on well-formed trees. -/
theorem remove_ok_eq (t : LinkedBST) (item : ℤ) (h : wf t) (r : Option ℤ)
    (hr : (remove t item).1 = Except.ok r) : r = some item := by
  by_cases hc : contains t item = false
  · simp only [remove, if_pos hc] at hr
    simp at hr
  · have hc' : contains t item = true := by
      cases hcc : contains t item
      · exact absurd hcc hc
      · rfl
    have hfind : (findT t.root item).isSome = true := by
      simpa [contains, find] using hc'
    have hs : t.size ≠ 0 := by
      intro h0
      have hleaf : t.root = BTree.leaf := countNodes_eq_zero (by omega)
      rw [hleaf] at hfind
      simp [findT] at hfind
    obtain ⟨nr, hnr⟩ := removeLocate_isSome_of_findT t.root item hfind
    simp [remove, hc', hnr, hs] at hr
    exact hr.symm

/-- C9 (witness): removing 4 from the tree built from `[5, 4, 6]`. -/
theorem remove_ok_eq_witness :
    wf (buildTree [5, 4, 6]) ∧
    (remove (buildTree [5, 4, 6]) 4).1 = Except.ok (some 4) ∧
    (some (4 : ℤ) : Option ℤ) = some 4 :=
  ⟨by decide, rfl, remove_ok_eq (buildTree [5, 4, 6]) 4 (by decide) (some 4) rfl⟩

/-! ### C5: `rebalance` preserves the contents and bounds the height -/

theorem take_getD_drop :
    ∀ (l : List ℤ) (n : ℕ), n < l.length →
      l.take n ++ l.getD n 0 :: l.drop (n + 1) = l := by
  intro l
  induction l with
  | nil => intro n h; simp at h
  | cons x xs ih =>
    intro n h
    cases n with
    | zero => simp
    | succ m =>
      simp only [List.take_succ_cons, List.getD_cons_succ, List.drop_succ_cons,
        List.cons_append, List.cons.injEq, true_and]
      exact ih m (by simp only [List.length_cons] at h; omega)

theorem inorderT_rb1 : ∀ l : List ℤ, inorderT (rb1 l) = l := by
  intro l
  induction l using rb1.induct with
  | case1 => simp [rb1, inorderT]
  | case2 x xs ih1 ih2 =>
    simp only [rb1, inorderT, ih1, ih2]
    exact take_getD_drop (x :: xs) ((xs.length + 1) / 2)
      (by simp only [List.length_cons]; omega)

theorem rb1_eq_leaf_iff (l : List ℤ) : rb1 l = BTree.leaf ↔ l = [] := by
  cases l with
  | nil => simp [rb1]
  | cons x xs => simp [rb1]

theorem height1_node (v : ℤ) (l r : BTree) :
    height1 (.node v l r) =
      if l = BTree.leaf ∧ r = BTree.leaf then 0
      else 1 + max (height1 l) (height1 r) := by
  cases l <;> cases r <;> simp [height1]

theorem clog_le_log_succ (m : ℕ) : Nat.clog 2 m ≤ Nat.log 2 m + 1 := by
  rcases Nat.eq_zero_or_pos m with h | h
  · subst h
    simp [Nat.clog]
  · exact (Nat.le_pow_iff_clog_le (by norm_num)).1
      (le_of_lt (Nat.lt_pow_succ_log_self (by norm_num) m))

theorem clog_two_step (n : ℕ) (h : 1 ≤ n) :
    Nat.clog 2 (n + 1) = Nat.clog 2 (n / 2 + 1) + 1 := by
  rw [Nat.clog_of_two_le (by norm_num) (by omega)]
  have harg : (n + 1 + 2 - 1) / 2 = n / 2 + 1 := by omega
  rw [harg]

theorem height1_rb1 : ∀ l : List ℤ, l ≠ [] →
    height1 (rb1 l) + 1 ≤ Nat.clog 2 (l.length + 1) := by
  intro l
  induction l using rb1.induct with
  | case1 => intro h; exact absurd rfl h
  | case2 x xs ih1 ih2 =>
    intro _
    by_cases hx : xs = []
    · subst hx
      have hh : height1 (rb1 [x]) = 0 := by
        simp [rb1, height1]
      rw [hh]
      simp only [List.length_cons, List.length_nil]
      exact Nat.clog_pos (by norm_num) (by norm_num)
    · have hxs : 1 ≤ xs.length := by
        cases xs with
        | nil => exact absurd rfl hx
        | cons a as => simp
      have hmid1 : 1 ≤ (xs.length + 1) / 2 := by omega
      have hlen_take : ((x :: xs).take ((xs.length + 1) / 2)).length =
          (xs.length + 1) / 2 := by
        simp only [List.length_take, List.length_cons]
        omega
      have htake_ne : (x :: xs).take ((xs.length + 1) / 2) ≠ [] := by
        intro hteq
        rw [hteq] at hlen_take
        simp at hlen_take
        omega
      have hL := ih1 htake_ne
      rw [hlen_take] at hL
      have hnl : rb1 ((x :: xs).take ((xs.length + 1) / 2)) ≠ BTree.leaf :=
        fun hcon => htake_ne ((rb1_eq_leaf_iff _).1 hcon)
      have hstep := clog_two_step (xs.length + 1) (by omega)
      simp only [rb1, height1_node, List.length_cons]
      rw [if_neg (fun hcon => hnl hcon.1)]
      by_cases hdr : (x :: xs).drop ((xs.length + 1) / 2 + 1) = []
      · rw [hdr]
        have h1 : rb1 ([] : List ℤ) = BTree.leaf := by simp [rb1]
        rw [h1]
        simp only [height1]
        omega
      · have hR := ih2 hdr
        have hlen_drop : ((x :: xs).drop ((xs.length + 1) / 2 + 1)).length =
            xs.length - (xs.length + 1) / 2 := by
          simp only [List.length_drop, List.length_cons]
          omega
        rw [hlen_drop] at hR
        have hmono : Nat.clog 2 (xs.length - (xs.length + 1) / 2 + 1) ≤
            Nat.clog 2 ((xs.length + 1) / 2 + 1) :=
          Nat.clog_mono_right 2 (by omega)
        omega

/-- C5: `rebalance()` preserves the `inorder()` sequence (hence the multiset
of stored values), leaves the size counter unchanged, and afterwards
`height() ≤ ⌊log2(n + 1)⌋` where `n` is the number of stored items. -/
theorem rebalance_spec (t : LinkedBST) :
    inorderT (rebalance t).root = inorderT t.root ∧
    (rebalance t).size = t.size ∧
    height (rebalance t) ≤ Nat.log 2 (countNodes t.root + 1) := by
  refine ⟨inorderT_rb1 _, rfl, ?_⟩
  rw [← length_inorderT]
  by_cases h : inorderT t.root = []
  · simp [height, rebalance, h, rb1, height1]
  · have h1 := height1_rb1 (inorderT t.root) h
    have h2 := clog_le_log_succ ((inorderT t.root).length + 1)
    simp only [height, rebalance]
    omega

/-! ### C8: `range_find` returns the sorted qualifying values, or absence -/

theorem count_filter_eq (p : ℤ → Bool) (a : ℤ) (l : List ℤ) :
    (l.filter p).count a = if p a then l.count a else 0 := by
  by_cases h : p a
  · rw [if_pos h]
    exact List.count_filter h
  · rw [if_neg h]
    rw [List.count_eq_zero]
    intro hmem
    exact h ((List.mem_filter.1 hmem).2)

/-- C8: provided the BST invariant holds, `range_find(low, high)` returns
`None` exactly when no stored value lies in `[low, high]`; otherwise it
returns a nonempty sorted list holding exactly the qualifying stored values
(with multiplicity), never an empty collection. -/
theorem range_find_spec (t : LinkedBST) (low high : ℤ) (h : invB t.root = true) :
    (range_find t low high = none ↔
      ∀ v ∈ inorderT t.root, ¬(low ≤ v ∧ v ≤ high)) ∧
    ∀ l, range_find t low high = some l →
      l ≠ [] ∧ l.Sorted (· ≤ ·) ∧
      ∀ v : ℤ, l.count v =
        if low ≤ v ∧ v ≤ high then (inorderT t.root).count v else 0 := by
  have hsor := sorted_of_invB h
  by_cases hf :
      (inorderT t.root).filter (fun v => decide (low ≤ v ∧ v ≤ high)) = []
  · have hr : range_find t low high = none := by
      simp only [range_find]
      rw [hf]
      simp
    refine ⟨⟨fun _ => ?_, fun _ => hr⟩, fun l hl => ?_⟩
    · intro v hv hcond
      have := List.filter_eq_nil_iff.1 hf v hv
      simp only [decide_eq_true_eq] at this
      exact this hcond
    · rw [hr] at hl
      exact absurd hl (by simp)
  · have hpos :
        0 < ((inorderT t.root).filter (fun v => decide (low ≤ v ∧ v ≤ high))).length :=
      List.length_pos.2 hf
    have hr : range_find t low high =
        some ((inorderT t.root).filter (fun v => decide (low ≤ v ∧ v ≤ high))) := by
      simp only [range_find]
      rw [if_pos hpos]
    refine ⟨⟨fun hn => ?_, fun hall => ?_⟩, fun l hl => ?_⟩
    · rw [hr] at hn
      exact absurd hn (by simp)
    · exact absurd
        (List.filter_eq_nil_iff.2
          (fun a ha => by simpa using hall a ha)) hf
    · rw [hr] at hl
      have hl' :
          l = (inorderT t.root).filter (fun v => decide (low ≤ v ∧ v ≤ high)) := by
        injection hl with h'
        exact h'.symm
      subst hl'
      refine ⟨hf, List.Pairwise.filter _ hsor, fun v => ?_⟩
      rw [count_filter_eq]
      simp only [decide_eq_true_eq]

/-- C8 (witness): the tree built from `[5, 4, 6, 3, 8, 19]` with the bounds
`[4, 8]`. -/
theorem range_find_spec_witness :
    invB (buildTree [5, 4, 6, 3, 8, 19]).root = true ∧
    ((range_find (buildTree [5, 4, 6, 3, 8, 19]) 4 8 = none ↔
       ∀ v ∈ inorderT (buildTree [5, 4, 6, 3, 8, 19]).root, ¬(4 ≤ v ∧ v ≤ 8)) ∧
     ∀ l, range_find (buildTree [5, 4, 6, 3, 8, 19]) 4 8 = some l →
       l ≠ [] ∧ l.Sorted (· ≤ ·) ∧
       ∀ v : ℤ, l.count v =
         if 4 ≤ v ∧ v ≤ 8 then (inorderT (buildTree [5, 4, 6, 3, 8, 19]).root).count v
         else 0) :=
  ⟨by decide, range_find_spec (buildTree [5, 4, 6, 3, 8, 19]) 4 8 (by decide)⟩
